import Mathlib

/-
Verification development for the EndoFind monthly surgeon data updater
(scripts/update_surgeons.py).  The Python string operations, the merge
engine, the orchestrator loop, the pagination loop and the run-log
retention are embedded as executable Lean definitions over List Char /
String, and the testable properties of the specification are settled
against them.
-/

namespace EndoFind

/-! ### Character classes (Python `str` semantics, ASCII ranges) -/

/-- Python whitespace for `str.strip` / `str.split` / regex `\s`
(space, tab, newline, vertical tab, form feed, carriage return). -/
def isPySpace (c : Char) : Bool :=
  c.toNat == 32 || (decide (9 ≤ c.toNat) && decide (c.toNat ≤ 13))

def isUpperAZ (c : Char) : Bool :=
  decide (65 ≤ c.toNat) && decide (c.toNat ≤ 90)

def isLowerAZ (c : Char) : Bool :=
  decide (97 ≤ c.toNat) && decide (c.toNat ≤ 122)

def isDigit09 (c : Char) : Bool :=
  decide (48 ≤ c.toNat) && decide (c.toNat ≤ 57)

/-- The character class `[a-z0-9]` of the regex in `make_id`. -/
def isIdAlnum (c : Char) : Bool := isLowerAZ c || isDigit09 c

def isDash (c : Char) : Bool := c == '-'

/-- The output alphabet `[a-z0-9-]` claimed for `make_id`. -/
def isIdChar (c : Char) : Bool := isIdAlnum c || isDash c

/-- ASCII lowering, as Python `str.lower` acts on the ASCII range. -/
def asciiLower (c : Char) : Char :=
  if 65 ≤ c.toNat ∧ c.toNat ≤ 90 then Char.ofNat (c.toNat + 32) else c

def lowerChars (l : List Char) : List Char := l.map asciiLower

/-! ### Python string primitives on `List Char` -/

/-- Python `str.strip()`: drop whitespace from both ends. -/
def pyStripChars (l : List Char) : List Char :=
  ((l.dropWhile isPySpace).reverse.dropWhile isPySpace).reverse

def pyStripStr (s : String) : String := ⟨pyStripChars s.data⟩

/-- Python `str.startswith`. -/
def pyStartsWith (s p : String) : Bool := p.data.isPrefixOf s.data

/-- Python `str.replace(p, r)`: replace all occurrences left to right,
non-overlapping.  Structural recursion on a fuel argument that starts at
the length of the string (enough fuel, since every step consumes at
least one character). -/
def replaceAllF (p r : List Char) : Nat → List Char → List Char
  | _, [] => []
  | 0, s => s
  | fuel + 1, c :: cs =>
    if !p.isEmpty && p.isPrefixOf (c :: cs) then
      r ++ replaceAllF p r fuel ((c :: cs).drop p.length)
    else
      c :: replaceAllF p r fuel cs

def replaceAll (p r s : List Char) : List Char := replaceAllF p r s.length s

/-- Regex substitution `re.sub(r'\s+', ' ', s)`: every maximal whitespace
run becomes a single space.  The Boolean records whether the previous
character was whitespace (i.e. we are inside a run). -/
def collapseWsAux : Bool → List Char → List Char
  | _, [] => []
  | prev, c :: cs =>
    if isPySpace c then
      if prev then collapseWsAux true cs else ' ' :: collapseWsAux true cs
    else
      c :: collapseWsAux false cs

def collapseWs (l : List Char) : List Char := collapseWsAux false l

/-- Regex substitution `re.sub(r'[^a-z0-9]+', '-', s)`: every maximal run
of characters outside `[a-z0-9]` becomes a single dash. -/
def dashifyAux : Bool → List Char → List Char
  | _, [] => []
  | prev, c :: cs =>
    if isIdAlnum c then
      c :: dashifyAux false cs
    else
      if prev then dashifyAux true cs else '-' :: dashifyAux true cs

def dashify (l : List Char) : List Char := dashifyAux false l

/-- Python `str.strip('-')`: drop dashes from both ends. -/
def stripDash (l : List Char) : List Char :=
  ((l.dropWhile isDash).reverse.dropWhile isDash).reverse

/-- Python `str.split()` (no separator): split on whitespace runs,
discarding empty tokens.  The accumulator holds the current token in
reverse. -/
def pySplitAux : List Char → List Char → List (List Char)
  | cur, [] => if cur.isEmpty then [] else [cur.reverse]
  | cur, c :: cs =>
    if isPySpace c then
      if cur.isEmpty then pySplitAux [] cs else cur.reverse :: pySplitAux [] cs
    else
      pySplitAux (c :: cur) cs

def pyTokens (l : List Char) : List (List Char) := pySplitAux [] l

/-! ### normalize_name and make_id (lines 53-63 of the source) -/

def drDotSpChars : List Char := ['d', 'r', '.', ' ']
def drSpChars : List Char := ['d', 'r', ' ']
def dotChars : List Char := ['.']
def commaChars : List Char := [',']

/-- `normalize_name`: strip, lower, delete all occurrences of the
substrings "dr. ", "dr ", ".", "," in this order, then collapse
whitespace runs to single spaces. -/
def normalizeChars (l : List Char) : List Char :=
  collapseWs
    (replaceAll commaChars []
      (replaceAll dotChars []
        (replaceAll drSpChars []
          (replaceAll drDotSpChars [] (lowerChars (pyStripChars l))))))

def normalize_name (s : String) : String := ⟨normalizeChars s.data⟩

/-- `make_id`: normalize, collapse non-`[a-z0-9]` runs to dashes, strip
leading/trailing dashes. -/
def make_id (s : String) : String :=
  ⟨stripDash (dashify (normalizeChars s.data))⟩

/-! ### Data model

A candidate is a scraped partial dict: a missing key is `none` (Python
`dict.get` with a default).  For `phone` and `web` the scrapers may also
store the value `None`, which `entry.get` returns just like a missing
key, so `none` covers both. -/

structure Candidate where
  name : Option String
  org : Option String
  city : Option String
  state : Option String
  phone : Option String
  web : Option String
  profile_url : Option String
  specs : Option (List String)
  accepting : Option Bool
  notes : Option String
  source : Option String
deriving DecidableEq, Repr

/-- Canonical record schema written by `merge_surgeons` (lines 249-269).
Geocoordinates are nullable numbers that the merge only ever sets to
null; the numeric type is abstracted to `Int` since no arithmetic is
ever performed on them. -/
structure SurgeonRecord where
  id : String
  name : String
  fn : String
  ln : String
  creds : List String
  org : String
  city : String
  state : String
  lat : Option Int
  lon : Option Int
  phone : Option String
  web : String
  specs : List String
  ins : String
  accepting : Bool
  notes : String
  stars : Nat
  source : String
  verified : Bool
deriving DecidableEq, Repr

def drPrefixChars : List Char := ['D', 'r', '.', ' ']

/-- Tokens of the name after deleting every occurrence of `"Dr. "`:
`name.replace('Dr. ', '').split()` in the source. -/
def drStripTokens (name : String) : List (List Char) :=
  pyTokens (replaceAll drPrefixChars [] name.data)

/-- The record synthesized for an accepted candidate (lines 249-269);
`name` is the already-stripped display name computed by the merge loop.
Python indexes `split()[0]` and `split()[-1]`; under the
`name.startswith('Dr. ')` guard the token list is provably non-empty,
so the `headD`/`getLastD` defaults are never used. -/
def buildRecord (e : Candidate) (name : String) : SurgeonRecord where
  id := make_id name
  name := name
  fn := if pyStartsWith name ("Dr. ") then ⟨(drStripTokens name).headD []⟩ else ""
  ln := if pyStartsWith name ("Dr. ") then ⟨(drStripTokens name).getLastD []⟩ else ""
  creds := ["MD"]
  org := e.org.getD ("Verify directly")
  city := e.city.getD ""
  state := e.state.getD ""
  lat := none
  lon := none
  phone := e.phone
  web :=
    match e.web with
    | some w => if w = "" then e.profile_url.getD "" else w
    | none => e.profile_url.getD ""
  specs := e.specs.getD (["Excision Surgery"])
  ins := "Verify directly"
  accepting := e.accepting.getD true
  notes := e.notes.getD ("Added via " ++ e.source.getD ("monthly update") ++ ". Verify details directly.")
  stars := 4
  source := e.source.getD ("Monthly Update")
  verified := false

/-! ### Merge engine (merge_surgeons, lines 231-275) -/

/-- The display name the merge loop works with:
`entry.get('name', '').strip()`. -/
def candName (e : Candidate) : String := pyStripStr (e.name.getD "")

/-- One pass of the merge loop.  `seen` holds the normalized keys of the
working set (the Python `existing_names` set, modelled as a list used
only through membership); the returned `Nat` counts records added while
processing `entries`. -/
def mergeLoop : List SurgeonRecord → List String → List Candidate →
    List SurgeonRecord × List String × Nat
  | recs, seen, [] => (recs, seen, 0)
  | recs, seen, e :: es =>
    let name := candName e
    if name = "" ∨ pyStartsWith name ("Dr.") = false then
      mergeLoop recs seen es
    else if normalize_name name ∈ seen then
      mergeLoop recs seen es
    else
      let r := mergeLoop (recs ++ [buildRecord e name]) (normalize_name name :: seen) es
      (r.1, r.2.1, r.2.2 + 1)

/-- `merge_surgeons(existing, new_entries)`: seed the seen-key set from
the existing records, run the loop, return the merged list and the
number of additions. -/
def merge_surgeons (existing : List SurgeonRecord) (new_entries : List Candidate) :
    List SurgeonRecord × Nat :=
  let r := mergeLoop existing (existing.map (fun d => normalize_name d.name)) new_entries
  (r.1, r.2.2)

/-! ### Run orchestrator (main, lines 302-315)

Each scraper invocation either returns its candidate list or raises; the
raised exception message is modelled as the `Except.error` case.  The
`results_by_source` dict is modelled as the association list of per-source
outcomes in iteration order. -/

inductive SourceOutcome where
  | ok (scraped added : Nat)
  | err (msg : String)
deriving DecidableEq, Repr

/-- The per-source loop of `main`: on success merge the scraped entries
into the accumulated set and record counts, on an exception record the
error and leave the set untouched.  Returns the final set, the total
added count, and the outcome map. -/
def runSources : List (String × Except String (List Candidate)) → List SurgeonRecord →
    List SurgeonRecord × Nat × List (String × SourceOutcome)
  | [], existing => (existing, 0, [])
  | (nm, res) :: rest, existing =>
    match res with
    | Except.error e =>
      let r := runSources rest existing
      (r.1, r.2.1, (nm, SourceOutcome.err e) :: r.2.2)
    | Except.ok entries =>
      let m := merge_surgeons existing entries
      let r := runSources rest m.1
      (r.1, m.2 + r.2.1, (nm, SourceOutcome.ok entries.length m.2) :: r.2.2)

/-! ### Run-summary history (main, lines 326-339) -/

structure RunSummary where
  timestamp : String
  total_surgeons : Nat
  added_this_run : Nat
  sources : List (String × SourceOutcome)
deriving DecidableEq, Repr

/-- `history.append(log_entry); history = history[-24:]`: append the new
entry, then keep only the last 24 summaries. -/
def appendRunSummary (history : List RunSummary) (entry : RunSummary) : List RunSummary :=
  let h := history ++ [entry]
  h.drop (h.length - 24)

/-! ### iCareBetter pagination (scrape_icarebetter, lines 68-133)

The DOM is abstracted: a fetched page provides the card list found by the
primary CSS selectors, the card list found by the heading fallback, and
whether a next-page control is present.  A card provides the text of its
first heading/anchor tag (if any), its location text and its first link. -/

structure Card where
  nameTag : Option String
  locText : Option String
  linkHref : Option String
deriving DecidableEq, Repr

structure PageDoc where
  primaryCards : List Card
  fallbackCards : List Card
  hasNext : Bool
deriving DecidableEq, Repr

/-- Per-card extraction (lines 99-122): skip cards without a name tag or
whose name does not start with "Dr."; otherwise build the partial
candidate dict.  The dict stores the location under the key
`source_location`, which `merge_surgeons` never reads, so the candidate's
`city`/`state` stay absent. -/
def extractCard (c : Card) : Option Candidate :=
  match c.nameTag with
  | none => none
  | some nm =>
    if pyStartsWith nm ("Dr.") then
      some
        { name := some nm
          org := none
          city := none
          state := none
          phone := none
          web := none
          profile_url := some (c.linkHref.getD "")
          specs := some (["Excision Surgery"])
          accepting := some true
          notes := none
          source := some ("iCareBetter") }
    else none

/-- The card list the loop body works on: the primary CSS selection, or
the heading fallback when the primary selection is empty (lines 86-93). -/
def pageCards (doc : PageDoc) : List Card :=
  if doc.primaryCards.isEmpty then doc.fallbackCards else doc.primaryCards

/-- The paginated while-loop.  `fetch p` is the parsed document for page
`p`, or `none` when the fetch failed.  `budget` is the number of page
advances still allowed before the `page > 40` safety check fires; the
initial call uses `budget = 39` at `page = 1`, so from page `p` the
budget is `40 - p`.  Returns the accumulated candidates and the number
of pages visited (fetch attempts). -/
def scrapePages (fetch : Nat → Option PageDoc) : Nat → Nat → List Candidate →
    List Candidate × Nat
  | budget, page, acc =>
    match fetch page with
    | none => (acc, 1)
    | some doc =>
      if (pageCards doc).isEmpty then (acc, 1)
      else if doc.hasNext = false then (acc ++ (pageCards doc).filterMap extractCard, 1)
      else
        match budget with
        | 0 => (acc ++ (pageCards doc).filterMap extractCard, 1)
        | b + 1 =>
          let r := scrapePages fetch b (page + 1) (acc ++ (pageCards doc).filterMap extractCard)
          (r.1, r.2 + 1)

def scrape_icarebetter (fetch : Nat → Option PageDoc) : List Candidate × Nat :=
  scrapePages fetch 39 1 []

/-! ### Spec-side comparison definitions

These two follow the words of the specification and of claim C10 — "the
first-name field is the first following token and the last-name field is
the last token" — to be compared with the record the code builds. -/

/-- The first whitespace token that follows the four-character prefix
`"Dr. "`. -/
def firstFollowingToken (s : String) : String :=
  ⟨(pyTokens (s.data.drop 4)).headD []⟩

/-- The last whitespace token of the whole name. -/
def lastToken (s : String) : String :=
  ⟨(pyTokens s.data).getLastD []⟩

/-! ### Shape of a valid display name

The shape `Dr\. [A-Z][a-z]+( [A-Z][a-z]+)+` that the extractors validate
(line 157 of the source), given structurally: the literal prefix
`"Dr. "` followed by at least two capitalized words joined by single
spaces. -/

def wordOkB : List Char → Bool
  | [] => false
  | c :: cs => isUpperAZ c && !cs.isEmpty && cs.all isLowerAZ

def spaceJoin : List (List Char) → List Char
  | [] => []
  | [w] => w
  | w :: ws => w ++ ' ' :: spaceJoin ws

def drShapeW (s : String) (ws : List (List Char)) : Prop :=
  2 ≤ ws.length ∧ (∀ w ∈ ws, wordOkB w = true) ∧ s.data = drPrefixChars ++ spaceJoin ws

instance (s : String) (ws : List (List Char)) : Decidable (drShapeW s ws) := by
  unfold drShapeW; infer_instance

/-- A candidate dict carrying only a display name, as the concrete test
inputs of the specification do. -/
def mkCand (n : String) : Candidate where
  name := some n
  org := none
  city := none
  state := none
  phone := none
  web := none
  profile_url := none
  specs := none
  accepting := none
  notes := none
  source := none

/-! ### Lemmas about the merge loop -/

/-- Two seen-key lists are interchangeable when they agree as sets
(the Python `existing_names` is a set, used only through membership). -/
def SeenEquiv (s t : List String) : Prop := ∀ x, x ∈ s ↔ x ∈ t

lemma seenEquiv_symm {s t : List String} (h : SeenEquiv s t) : SeenEquiv t s :=
  fun x => (h x).symm

/-- A candidate is accepted by the title check when its stripped name is
non-empty and starts with "Dr.". -/
def passesTitle (e : Candidate) : Prop :=
  ¬(candName e = "" ∨ pyStartsWith (candName e) ("Dr.") = false)

instance (e : Candidate) : Decidable (passesTitle e) := by
  unfold passesTitle; infer_instance

lemma mergeLoop_congr (es : List Candidate) :
    ∀ recs s t, SeenEquiv s t →
      (mergeLoop recs s es).1 = (mergeLoop recs t es).1 ∧
      (mergeLoop recs s es).2.2 = (mergeLoop recs t es).2.2 ∧
      SeenEquiv (mergeLoop recs s es).2.1 (mergeLoop recs t es).2.1 := by
  induction es with
  | nil => exact fun recs s t h => ⟨rfl, rfl, h⟩
  | cons e es ih =>
    intro recs s t h
    simp only [mergeLoop]
    by_cases h1 : candName e = "" ∨ pyStartsWith (candName e) ("Dr.") = false
    · simp only [if_pos h1]
      exact ih recs s t h
    · simp only [if_neg h1]
      by_cases h2 : normalize_name (candName e) ∈ s
      · have h2t : normalize_name (candName e) ∈ t := (h _).mp h2
        simp only [if_pos h2, if_pos h2t]
        exact ih recs s t h
      · have h2t : normalize_name (candName e) ∉ t := fun hx => h2 ((h _).mpr hx)
        simp only [if_neg h2, if_neg h2t]
        have h3 : SeenEquiv (normalize_name (candName e) :: s)
            (normalize_name (candName e) :: t) := by
          intro x
          simp [h x]
        obtain ⟨ha, hb, hc⟩ :=
          ih (recs ++ [buildRecord e (candName e)]) _ _ h3
        exact ⟨ha, by simp [hb], hc⟩

lemma mergeLoop_append (xs ys : List Candidate) :
    ∀ recs seen,
      (mergeLoop recs seen (xs ++ ys)).1 =
        (mergeLoop (mergeLoop recs seen xs).1 (mergeLoop recs seen xs).2.1 ys).1 ∧
      SeenEquiv (mergeLoop recs seen (xs ++ ys)).2.1
        (mergeLoop (mergeLoop recs seen xs).1 (mergeLoop recs seen xs).2.1 ys).2.1 ∧
      (mergeLoop recs seen (xs ++ ys)).2.2 =
        (mergeLoop recs seen xs).2.2 +
          (mergeLoop (mergeLoop recs seen xs).1 (mergeLoop recs seen xs).2.1 ys).2.2 := by
  induction xs with
  | nil =>
    intro recs seen
    exact ⟨rfl, fun x => Iff.rfl, by simp [mergeLoop]⟩
  | cons e xs ih =>
    intro recs seen
    simp only [List.cons_append, mergeLoop]
    by_cases h1 : candName e = "" ∨ pyStartsWith (candName e) ("Dr.") = false
    · simp only [if_pos h1]
      exact ih recs seen
    · simp only [if_neg h1]
      by_cases h2 : normalize_name (candName e) ∈ seen
      · simp only [if_pos h2]
        exact ih recs seen
      · simp only [if_neg h2]
        obtain ⟨ha, hb, hc⟩ :=
          ih (recs ++ [buildRecord e (candName e)]) (normalize_name (candName e) :: seen)
        refine ⟨ha, hb, ?_⟩
        simp [hc]
        omega

lemma mergeLoop_extends (es : List Candidate) :
    ∀ recs seen, ∃ t, (mergeLoop recs seen es).1 = recs ++ t := by
  induction es with
  | nil => exact fun recs seen => ⟨[], by simp [mergeLoop]⟩
  | cons e es ih =>
    intro recs seen
    simp only [mergeLoop]
    by_cases h1 : candName e = "" ∨ pyStartsWith (candName e) ("Dr.") = false
    · simp only [if_pos h1]
      exact ih recs seen
    · simp only [if_neg h1]
      by_cases h2 : normalize_name (candName e) ∈ seen
      · simp only [if_pos h2]
        exact ih recs seen
      · simp only [if_neg h2]
        obtain ⟨t, ht⟩ :=
          ih (recs ++ [buildRecord e (candName e)]) (normalize_name (candName e) :: seen)
        exact ⟨buildRecord e (candName e) :: t, by simp [ht]⟩

lemma mergeLoop_seen_mono (es : List Candidate) :
    ∀ recs seen x, x ∈ seen → x ∈ (mergeLoop recs seen es).2.1 := by
  induction es with
  | nil => exact fun recs seen x hx => hx
  | cons e es ih =>
    intro recs seen x hx
    simp only [mergeLoop]
    by_cases h1 : candName e = "" ∨ pyStartsWith (candName e) ("Dr.") = false
    · simp only [if_pos h1]
      exact ih recs seen x hx
    · simp only [if_neg h1]
      by_cases h2 : normalize_name (candName e) ∈ seen
      · simp only [if_pos h2]
        exact ih recs seen x hx
      · simp only [if_neg h2]
        exact ih _ _ x (List.mem_cons_of_mem _ hx)

lemma mergeLoop_seen_covers (es : List Candidate) :
    ∀ recs seen e, e ∈ es → passesTitle e →
      normalize_name (candName e) ∈ (mergeLoop recs seen es).2.1 := by
  induction es with
  | nil => intro recs seen e he; cases he
  | cons a es ih =>
    intro recs seen e he hgood
    rcases List.mem_cons.mp he with he | he
    · subst he
      simp only [mergeLoop]
      simp only [if_neg hgood]
      by_cases h2 : normalize_name (candName e) ∈ seen
      · simp only [if_pos h2]
        exact mergeLoop_seen_mono es recs seen _ h2
      · simp only [if_neg h2]
        exact mergeLoop_seen_mono es _ _ _ (List.mem_cons_self _ _)
    · simp only [mergeLoop]
      by_cases h1 : candName a = "" ∨ pyStartsWith (candName a) ("Dr.") = false
      · simp only [if_pos h1]
        exact ih recs seen e he hgood
      · simp only [if_neg h1]
        by_cases h2 : normalize_name (candName a) ∈ seen
        · simp only [if_pos h2]
          exact ih recs seen e he hgood
        · simp only [if_neg h2]
          exact ih _ _ e he hgood

lemma mergeLoop_skip_all (es : List Candidate) :
    ∀ recs seen,
      (∀ e ∈ es, passesTitle e → normalize_name (candName e) ∈ seen) →
      mergeLoop recs seen es = (recs, seen, 0) := by
  induction es with
  | nil => exact fun recs seen _ => rfl
  | cons e es ih =>
    intro recs seen hall
    simp only [mergeLoop]
    by_cases h1 : candName e = "" ∨ pyStartsWith (candName e) ("Dr.") = false
    · simp only [if_pos h1]
      exact ih recs seen fun a ha => hall a (List.mem_cons_of_mem _ ha)
    · have h2 : normalize_name (candName e) ∈ seen :=
        hall e (List.mem_cons_self _ _) h1
      simp only [if_neg h1, if_pos h2]
      exact ih recs seen fun a ha => hall a (List.mem_cons_of_mem _ ha)

lemma mergeLoop_seen_tracks (es : List Candidate) :
    ∀ recs seen,
      SeenEquiv seen (recs.map fun d => normalize_name d.name) →
      SeenEquiv (mergeLoop recs seen es).2.1
        ((mergeLoop recs seen es).1.map fun d => normalize_name d.name) := by
  induction es with
  | nil => exact fun recs seen h => h
  | cons e es ih =>
    intro recs seen h
    simp only [mergeLoop]
    by_cases h1 : candName e = "" ∨ pyStartsWith (candName e) ("Dr.") = false
    · simp only [if_pos h1]
      exact ih recs seen h
    · simp only [if_neg h1]
      by_cases h2 : normalize_name (candName e) ∈ seen
      · simp only [if_pos h2]
        exact ih recs seen h
      · simp only [if_neg h2]
        refine ih _ _ ?_
        intro x
        have hb : (buildRecord e (candName e)).name = candName e := rfl
        have hmap : ((recs ++ [buildRecord e (candName e)]).map fun d => normalize_name d.name)
            = (recs.map fun d => normalize_name d.name) ++ [normalize_name (candName e)] := by
          simp [hb]
        rw [hmap]
        constructor
        · intro hx
          rcases List.mem_cons.mp hx with hx | hx
          · exact List.mem_append.mpr (Or.inr (by simp [hx]))
          · exact List.mem_append.mpr (Or.inl ((h x).mp hx))
        · intro hx
          rcases List.mem_append.mp hx with hx | hx
          · exact List.mem_cons_of_mem _ ((h x).mpr hx)
          · exact List.mem_cons.mpr (Or.inl (by simpa using hx))

/-! ### Lemmas about the orchestrator loop -/

lemma merge_surgeons_extends (E : List SurgeonRecord) (C : List Candidate) :
    E <+: (merge_surgeons E C).1 := by
  obtain ⟨t, ht⟩ := mergeLoop_extends C E (E.map fun d => normalize_name d.name)
  exact ⟨t, ht.symm⟩

lemma runSources_extends (srcs : List (String × Except String (List Candidate))) :
    ∀ E, E <+: (runSources srcs E).1 := by
  induction srcs with
  | nil => exact fun E => List.prefix_refl E
  | cons p srcs ih =>
    intro E
    obtain ⟨nm, res⟩ := p
    cases res with
    | error e =>
      simpa [runSources] using ih E
    | ok entries =>
      have h2 := ih (merge_surgeons E entries).1
      simpa [runSources] using (merge_surgeons_extends E entries).trans h2

lemma runSources_skip_error (post : List (String × Except String (List Candidate)))
    (nm msg : String) (pre : List (String × Except String (List Candidate))) :
    ∀ E,
      (runSources (pre ++ (nm, Except.error msg) :: post) E).1 =
        (runSources (pre ++ post) E).1 ∧
      (runSources (pre ++ (nm, Except.error msg) :: post) E).2.1 =
        (runSources (pre ++ post) E).2.1 ∧
      (nm, SourceOutcome.err msg) ∈ (runSources (pre ++ (nm, Except.error msg) :: post) E).2.2 := by
  induction pre with
  | nil =>
    intro E
    refine ⟨?_, ?_, ?_⟩ <;> simp [runSources]
  | cons p pre ih =>
    intro E
    obtain ⟨nm2, res⟩ := p
    cases res with
    | error e2 =>
      obtain ⟨ha, hb, hc⟩ := ih E
      refine ⟨?_, ?_, ?_⟩ <;> simp [runSources]
      · exact ha
      · exact hb
      · exact Or.inr hc
    | ok entries =>
      obtain ⟨ha, hb, hc⟩ := ih (merge_surgeons E entries).1
      refine ⟨?_, ?_, ?_⟩ <;> simp [runSources]
      · exact ha
      · exact hb
      · exact hc

/-! ### Lemmas about the pagination loop -/

lemma scrapePages_visits (fetch : Nat → Option PageDoc) :
    ∀ budget page acc, (scrapePages fetch budget page acc).2 ≤ budget + 1 := by
  intro budget
  induction budget with
  | zero =>
    intro page acc
    rw [scrapePages]
    cases fetch page with
    | none => simp
    | some doc =>
      by_cases h1 : (pageCards doc).isEmpty
      · simp [h1]
      · by_cases h2 : doc.hasNext = false
        · simp [h1, h2]
        · simp [h1, h2]
  | succ b ih =>
    intro page acc
    rw [scrapePages]
    cases fetch page with
    | none => simp
    | some doc =>
      by_cases h1 : (pageCards doc).isEmpty
      · simp [h1]
      · by_cases h2 : doc.hasNext = false
        · simp [h1, h2]
        · simp only [h1, h2]
          have := ih (page + 1) (acc ++ (pageCards doc).filterMap extractCard)
          simp [this]

/-! ### Character-class facts -/

lemma lower_not_space {c : Char} (h : isLowerAZ c = true) : isPySpace c = false := by
  simp [isLowerAZ] at h
  simp [isPySpace]
  omega

lemma lower_isIdAlnum {c : Char} (h : isLowerAZ c = true) : isIdAlnum c = true := by
  simp [isIdAlnum, h]

lemma alnum_not_dash {c : Char} (h : isIdAlnum c = true) : isDash c = false := by
  simp [isIdAlnum, isLowerAZ, isDigit09] at h
  simp [isDash]
  intro he
  rw [he] at h
  revert h
  decide

lemma asciiLower_fix {c : Char} (h : isLowerAZ c = true) : asciiLower c = c := by
  simp [isLowerAZ] at h
  unfold asciiLower
  rw [if_neg (by omega)]

/-! ### Small list helpers -/

lemma getLast?_cons_of_ne {α : Type} {c : α} {l : List α} {y : α}
    (hl : l ≠ []) (h : l.getLast? = some y) : (c :: l).getLast? = some y := by
  cases l with
  | nil => exact absurd rfl hl
  | cons b t => rw [List.getLast?_cons_cons]; exact h

lemma exists_getLast? {α : Type} {l : List α} (h : l ≠ []) : ∃ y, l.getLast? = some y := by
  cases hr : l.reverse with
  | nil => exact absurd (List.reverse_eq_nil_iff.mp hr) h
  | cons c cs => exact ⟨c, by rw [← List.head?_reverse, hr]; rfl⟩

lemma mem_of_getLast?Eq {α : Type} {l : List α} {c : α} (h : l.getLast? = some c) : c ∈ l := by
  induction l with
  | nil => simp at h
  | cons a t ih =>
    cases t with
    | nil =>
      rw [List.getLast?_singleton] at h
      simp at h
      simp [h]
    | cons b t2 =>
      rw [List.getLast?_cons_cons] at h
      exact List.mem_cons_of_mem _ (ih h)

lemma head?_dropWhile_not (p : Char → Bool) :
    ∀ (l : List Char) {c : Char}, (l.dropWhile p).head? = some c → p c = false := by
  intro l
  induction l with
  | nil => intro c h; simp [List.dropWhile] at h
  | cons a t ih =>
    intro c h
    rw [List.dropWhile_cons] at h
    by_cases hp : p a = true
    · rw [if_pos hp] at h
      exact ih h
    · rw [if_neg hp] at h
      have hac : a = c := by simpa using h
      simp at hp
      rwa [← hac]

lemma getLast?_map' (f : Char → Char) : ∀ (l : List Char),
    (l.map f).getLast? = l.getLast?.map f := by
  intro l
  induction l with
  | nil => rfl
  | cons a t ih =>
    cases t with
    | nil => rfl
    | cons b t2 =>
      simp only [List.map_cons, List.getLast?_cons_cons]
      have := ih
      simp only [List.map_cons] at this
      exact this

/-! ### replaceAll lemmas -/

lemma replaceAllF_getLast (p : List Char) (y : Char) (hpl : p.getLast? ≠ some y) :
    ∀ fuel s, s.length ≤ fuel → s.getLast? = some y →
      (replaceAllF p [] fuel s).getLast? = some y ∧ replaceAllF p [] fuel s ≠ [] := by
  intro fuel
  induction fuel with
  | zero =>
    intro s hlen hlast
    have hnil : s = [] := List.length_eq_zero.mp (Nat.le_zero.mp hlen)
    subst hnil
    simp at hlast
  | succ f ih =>
    intro s hlen hlast
    cases s with
    | nil => simp at hlast
    | cons c cs =>
      simp only [replaceAllF]
      by_cases hp : (!p.isEmpty && p.isPrefixOf (c :: cs)) = true
      · rw [if_pos hp]
        simp only [List.nil_append]
        rw [Bool.and_eq_true] at hp
        obtain ⟨hpe, hpp⟩ := hp
        have hpne : p ≠ [] := by
          intro h0
          rw [h0] at hpe
          simp at hpe
        obtain ⟨t, ht⟩ := List.isPrefixOf_iff_prefix.mp hpp
        have htne : t ≠ [] := by
          intro h0
          rw [h0, List.append_nil] at ht
          rw [← ht] at hlast
          exact hpl hlast
        have hdrop : (c :: cs).drop p.length = t := by
          rw [← ht]
          exact List.drop_left p t
        rw [hdrop]
        apply ih
        · have hlt := congrArg List.length ht
          simp at hlt
          have hp1 : 1 ≤ p.length := by
            cases p with
            | nil => exact absurd rfl hpne
            | cons _ _ => simp
          simp at hlen
          omega
        · rw [← ht, List.getLast?_append_of_ne_nil p htne] at hlast
          exact hlast
      · rw [if_neg hp]
        cases cs with
        | nil =>
          rw [List.getLast?_singleton] at hlast
          simp at hlast
          subst hlast
          simp only [replaceAllF]
          exact ⟨List.getLast?_singleton _, by simp⟩
        | cons b bs =>
          have hl2 : (b :: bs).getLast? = some y := by
            rw [← List.getLast?_cons_cons]
            exact hlast
          have hlen2 : (b :: bs).length ≤ f := by
            simp at hlen ⊢
            omega
          obtain ⟨h1, h2⟩ := ih (b :: bs) hlen2 hl2
          exact ⟨getLast?_cons_of_ne h2 h1, by simp⟩

lemma replaceAll_getLast (p : List Char) (y : Char) (hpl : p.getLast? ≠ some y)
    (s : List Char) (hlast : s.getLast? = some y) :
    (replaceAll p [] s).getLast? = some y ∧ replaceAll p [] s ≠ [] :=
  replaceAllF_getLast p y hpl s.length s (Nat.le_refl _) hlast

lemma getLast?_ne_of_lower (p : List Char) (d : Char) (hp : p.getLast? = some d)
    (hd : isLowerAZ d = false) (y : Char) (hy : isLowerAZ y = true) :
    p.getLast? ≠ some y := by
  rw [hp]
  intro h
  have hdy : d = y := Option.some.inj h
  rw [hdy] at hd
  exact absurd hy (by simp [hd])

lemma replaceAllF_no_occ (p : List Char) :
    ∀ fuel s, s.length ≤ fuel → ¬(p <:+: s) → replaceAllF p [] fuel s = s := by
  intro fuel
  induction fuel with
  | zero =>
    intro s hlen _
    have hnil : s = [] := List.length_eq_zero.mp (Nat.le_zero.mp hlen)
    subst hnil
    rfl
  | succ f ih =>
    intro s hlen hno
    cases s with
    | nil => rfl
    | cons c cs =>
      simp only [replaceAllF]
      have hp : ¬((!p.isEmpty && p.isPrefixOf (c :: cs)) = true) := by
        intro h
        rw [Bool.and_eq_true] at h
        exact hno (List.isPrefixOf_iff_prefix.mp h.2).isInfix
      rw [if_neg hp]
      have hcs : replaceAllF p [] f cs = cs := by
        apply ih cs (by simp at hlen; omega)
        intro hin
        exact hno (List.infix_cons hin)
      rw [hcs]

lemma replaceAllF_strip_front (a : Char) (p' rest : List Char)
    (hno : ¬((a :: p') <:+: rest)) :
    ∀ fuel, ((a :: p') ++ rest).length ≤ fuel →
      replaceAllF (a :: p') [] fuel ((a :: p') ++ rest) = rest := by
  intro fuel
  cases fuel with
  | zero => intro hlen; simp at hlen
  | succ f =>
    intro hlen
    simp only [List.cons_append, replaceAllF, List.append_eq]
    have hcond : (!(a :: p').isEmpty && (a :: p').isPrefixOf (a :: (p' ++ rest))) = true := by
      rw [Bool.and_eq_true]
      constructor
      · simp
      · apply List.isPrefixOf_iff_prefix.mpr
        rw [← List.cons_append]
        exact List.prefix_append _ _
    rw [if_pos hcond]
    simp only [List.nil_append]
    have hdrop : (a :: (p' ++ rest)).drop (a :: p').length = rest := by
      rw [← List.cons_append]
      exact List.drop_left _ _
    rw [hdrop]
    apply replaceAllF_no_occ (a :: p') f rest _ hno
    simp at hlen
    omega


/-! ### collapseWs, dashify and stripDash lemmas -/

lemma collapseWsAux_getLast (y : Char) (hy : isPySpace y = false) :
    ∀ (l : List Char) (b : Bool), l.getLast? = some y →
      (collapseWsAux b l).getLast? = some y ∧ collapseWsAux b l ≠ [] := by
  intro l
  induction l with
  | nil => intro b h; simp at h
  | cons c cs ih =>
    intro b h
    cases cs with
    | nil =>
      rw [List.getLast?_singleton] at h
      simp at h
      subst h
      simp only [collapseWsAux]
      rw [if_neg (by simp [hy])]
      exact ⟨List.getLast?_singleton _, by simp⟩
    | cons d ds =>
      have h2 : (d :: ds).getLast? = some y := by
        rw [← List.getLast?_cons_cons]
        exact h
      simp only [collapseWsAux]
      by_cases hc : isPySpace c = true
      · rw [if_pos hc]
        by_cases hb : b = true
        · rw [if_pos hb]
          exact ih true h2
        · rw [if_neg hb]
          obtain ⟨h1', h2'⟩ := ih true h2
          exact ⟨getLast?_cons_of_ne h2' h1', by simp⟩
      · rw [if_neg hc]
        obtain ⟨h1', h2'⟩ := ih false h2
        exact ⟨getLast?_cons_of_ne h2' h1', by simp⟩

lemma dashifyAux_getLast (y : Char) (hy : isIdAlnum y = true) :
    ∀ (l : List Char) (b : Bool), l.getLast? = some y →
      (dashifyAux b l).getLast? = some y ∧ dashifyAux b l ≠ [] := by
  intro l
  induction l with
  | nil => intro b h; simp at h
  | cons c cs ih =>
    intro b h
    cases cs with
    | nil =>
      rw [List.getLast?_singleton] at h
      simp at h
      subst h
      simp only [dashifyAux]
      rw [if_pos (by simp [hy])]
      exact ⟨List.getLast?_singleton _, by simp⟩
    | cons d ds =>
      have h2 : (d :: ds).getLast? = some y := by
        rw [← List.getLast?_cons_cons]
        exact h
      simp only [dashifyAux]
      by_cases hc : isIdAlnum c = true
      · rw [if_pos hc]
        obtain ⟨h1', h2'⟩ := ih false h2
        exact ⟨getLast?_cons_of_ne h2' h1', by simp⟩
      · rw [if_neg hc]
        by_cases hb : b = true
        · rw [if_pos hb]
          exact ih true h2
        · rw [if_neg hb]
          obtain ⟨h1', h2'⟩ := ih true h2
          exact ⟨getLast?_cons_of_ne h2' h1', by simp⟩

lemma dashifyAux_chars :
    ∀ (l : List Char) (b : Bool) (c : Char), c ∈ dashifyAux b l → isIdChar c = true := by
  intro l
  induction l with
  | nil => intro b c h; simp [dashifyAux] at h
  | cons a t ih =>
    intro b c h
    simp only [dashifyAux] at h
    by_cases ha : isIdAlnum a = true
    · rw [if_pos ha] at h
      rcases List.mem_cons.mp h with h | h
      · subst h
        simp [isIdChar, ha]
      · exact ih false c h
    · rw [if_neg ha] at h
      by_cases hb : b = true
      · rw [if_pos hb] at h
        exact ih true c h
      · rw [if_neg hb] at h
        rcases List.mem_cons.mp h with h | h
        · subst h
          simp [isIdChar, isDash]
        · exact ih true c h

lemma stripDash_subset {c : Char} {l : List Char} (h : c ∈ stripDash l) : c ∈ l := by
  unfold stripDash at h
  rw [List.mem_reverse] at h
  have h2 := (List.dropWhile_suffix isDash).sublist.subset h
  rw [List.mem_reverse] at h2
  exact (List.dropWhile_suffix isDash).sublist.subset h2

lemma stripDash_front (l : List Char) : stripDash l <+: l.dropWhile isDash := by
  unfold stripDash
  have hs : ((l.dropWhile isDash).reverse.dropWhile isDash) <:+ (l.dropWhile isDash).reverse :=
    List.dropWhile_suffix _
  have hp := List.reverse_prefix.mpr hs
  rwa [List.reverse_reverse] at hp

lemma stripDash_head {l : List Char} {c : Char}
    (h : (stripDash l).head? = some c) : isDash c = false := by
  have hne : stripDash l ≠ [] := by
    intro h0
    rw [h0] at h
    simp at h
  obtain ⟨r, hr⟩ := stripDash_front l
  have hh : (l.dropWhile isDash).head? = some c := by
    rw [← hr, List.head?_append_of_ne_nil _ hne]
    exact h
  exact head?_dropWhile_not isDash l hh

lemma stripDash_getLast {l : List Char} {c : Char}
    (h : (stripDash l).getLast? = some c) : isDash c = false := by
  unfold stripDash at h
  rw [List.getLast?_reverse] at h
  exact head?_dropWhile_not isDash _ h

lemma stripDash_ne_nil {l : List Char} {y : Char}
    (hl : l.getLast? = some y) (hy : isDash y = false) : stripDash l ≠ [] := by
  intro h0
  unfold stripDash at h0
  rw [List.reverse_eq_nil_iff, List.dropWhile_eq_nil_iff] at h0
  have h1 : l.dropWhile isDash ≠ [] := by
    intro h1
    rw [List.dropWhile_eq_nil_iff] at h1
    have := h1 y (mem_of_getLast?Eq hl)
    simp [hy] at this
  have h2 : (l.dropWhile isDash).getLast? = some y := by
    obtain ⟨r, hr⟩ := List.dropWhile_suffix isDash (l := l)
    rw [← hr, List.getLast?_append_of_ne_nil r h1] at hl
    exact hl
  have h3 : y ∈ (l.dropWhile isDash).reverse := by
    rw [List.mem_reverse]
    exact mem_of_getLast?Eq h2
  have := h0 y h3
  simp [hy] at this

/-! ### pyStrip identity on shape-matching names -/

lemma pyStrip_id {l : List Char} {a y : Char}
    (hh : l.head? = some a) (ha : isPySpace a = false)
    (hl : l.getLast? = some y) (hy : isPySpace y = false) : pyStripChars l = l := by
  unfold pyStripChars
  have h1 : l.dropWhile isPySpace = l := by
    cases l with
    | nil => rfl
    | cons c cs =>
      have hc : c = a := by simpa using hh
      subst hc
      rw [List.dropWhile_cons, if_neg (by simp [ha])]
  have h2 : l.reverse.dropWhile isPySpace = l.reverse := by
    cases hr : l.reverse with
    | nil => rfl
    | cons c cs =>
      have hcy : c = y := by
        have hrev := List.head?_reverse l
        rw [hr, hl] at hrev
        simpa using hrev
      subst hcy
      rw [List.dropWhile_cons, if_neg (by simp [hy])]
  rw [h1, h2, List.reverse_reverse]

/-! ### Last character of a shape-matching name -/

lemma spaceJoin_getLast (ws : List (List Char)) (hne : ws ≠ [])
    (hall : ∀ w ∈ ws, wordOkB w = true) :
    ∃ y, (spaceJoin ws).getLast? = some y ∧ isLowerAZ y = true := by
  induction ws with
  | nil => exact absurd rfl hne
  | cons w ws ih =>
    cases ws with
    | nil =>
      have hw := hall w (List.mem_cons_self _ _)
      cases w with
      | nil => simp [wordOkB] at hw
      | cons c cs =>
        simp only [wordOkB, Bool.and_eq_true] at hw
        obtain ⟨⟨-, hcs⟩, hlow⟩ := hw
        have hcsne : cs ≠ [] := by
          cases cs with
          | nil => simp at hcs
          | cons _ _ => simp
        obtain ⟨y, hy⟩ := exists_getLast? hcsne
        have hylow : isLowerAZ y = true := by
          rw [List.all_eq_true] at hlow
          exact hlow y (mem_of_getLast?Eq hy)
        refine ⟨y, ?_, hylow⟩
        simp only [spaceJoin]
        exact getLast?_cons_of_ne hcsne hy
    | cons w2 ws2 =>
      obtain ⟨y, hy, hlow⟩ := ih (by simp) (fun x hx => hall x (List.mem_cons_of_mem _ hx))
      refine ⟨y, ?_, hlow⟩
      simp only [spaceJoin]
      have hSJne : spaceJoin (w2 :: ws2) ≠ [] := by
        intro h0
        rw [h0] at hy
        simp at hy
      rw [List.getLast?_append_of_ne_nil w (by simp)]
      exact getLast?_cons_of_ne hSJne hy

lemma replaceAll_strip_front (p rest : List Char) (hp : p ≠ []) (hno : ¬(p <:+: rest)) :
    replaceAll p [] (p ++ rest) = rest := by
  obtain ⟨a, p2, rfl⟩ : ∃ a p2, p = a :: p2 := by
    cases p with
    | nil => exact absurd rfl hp
    | cons a p2 => exact ⟨a, p2, rfl⟩
  exact replaceAllF_strip_front a p2 rest hno _ (Nat.le_refl _)

/-! ### Unfolding equations in a fixed canonical form -/

lemma make_id_data (s : String) :
    (make_id s).data = stripDash (dashify (normalizeChars s.data)) := by
  rw [make_id]

lemma dashify_eq (l : List Char) : dashify l = dashifyAux false l := rfl

lemma normalizeChars_eq (l : List Char) :
    normalizeChars l = collapseWsAux false (replaceAll commaChars []
      (replaceAll dotChars [] (replaceAll drSpChars []
        (replaceAll drDotSpChars [] (lowerChars (pyStripChars l)))))) := rfl


lemma buildRecord_fn (e : Candidate) (name : String) :
    (buildRecord e name).fn =
      if pyStartsWith name ("Dr. ") = true then (⟨(drStripTokens name).headD []⟩ : String)
      else "" := rfl

lemma buildRecord_ln (e : Candidate) (name : String) :
    (buildRecord e name).ln =
      if pyStartsWith name ("Dr. ") = true then (⟨(drStripTokens name).getLastD []⟩ : String)
      else "" := rfl


/-! ### Claim theorems -/

/-- Claim C7: for every name matching the `Dr. Given Family` shape,
`make_id` returns a non-empty identifier whose characters all lie in
`[a-z0-9-]`, which neither starts nor ends with a dash, and `make_id`
is deterministic. -/
theorem make_id_wellformed (s : String) (ws : List (List Char)) (h : drShapeW s ws) :
    make_id s ≠ "" ∧
    (∀ c ∈ (make_id s).data, isIdChar c = true) ∧
    (∀ c, (make_id s).data.head? = some c → c ≠ '-') ∧
    (∀ c, (make_id s).data.getLast? = some c → c ≠ '-') ∧
    (∀ t : String, t = s → make_id t = make_id s) := by
  obtain ⟨hlen, hall, hdata⟩ := h
  have hwsne : ws ≠ [] := by
    intro h0
    rw [h0] at hlen
    simp at hlen
  obtain ⟨y, hylast, hylow⟩ := spaceJoin_getLast ws hwsne hall
  have hSJne : spaceJoin ws ≠ [] := by
    intro h0
    rw [h0] at hylast
    simp at hylast
  have hslast : s.data.getLast? = some y := by
    rw [hdata, List.getLast?_append_of_ne_nil drPrefixChars hSJne]
    exact hylast
  have hshead : s.data.head? = some 'D' := by
    rw [hdata]
    rfl
  have hstrip : pyStripChars s.data = s.data :=
    pyStrip_id hshead (by decide) hslast (lower_not_space hylow)
  have h0 : (lowerChars (pyStripChars s.data)).getLast? = some y := by
    rw [lowerChars, hstrip, getLast?_map', hslast]
    simp [asciiLower_fix hylow]
  have h1 := replaceAll_getLast drDotSpChars y
    (getLast?_ne_of_lower drDotSpChars ' ' (by decide) (by decide) y hylow) _ h0
  have h2 := replaceAll_getLast drSpChars y
    (getLast?_ne_of_lower drSpChars ' ' (by decide) (by decide) y hylow) _ h1.1
  have h3 := replaceAll_getLast dotChars y
    (getLast?_ne_of_lower dotChars '.' (by decide) (by decide) y hylow) _ h2.1
  have h4 := replaceAll_getLast commaChars y
    (getLast?_ne_of_lower commaChars ',' (by decide) (by decide) y hylow) _ h3.1
  have h5 := collapseWsAux_getLast y (lower_not_space hylow) _ false h4.1
  have h6 := dashifyAux_getLast y (lower_isIdAlnum hylow) _ false h5.1
  have hmk : (make_id s).data = stripDash (dashifyAux false (collapseWsAux false
      (replaceAll commaChars [] (replaceAll dotChars [] (replaceAll drSpChars []
        (replaceAll drDotSpChars [] (lowerChars (pyStripChars s.data)))))))) := by
    rw [make_id_data, normalizeChars_eq, dashify_eq]
  refine ⟨?_, ?_, ?_, ?_, fun t ht => by rw [ht]⟩
  · intro hcontra
    have hd := congrArg String.data hcontra
    rw [hmk] at hd
    exact stripDash_ne_nil h6.1 (alnum_not_dash (lower_isIdAlnum hylow)) hd
  · intro c hc
    rw [hmk] at hc
    exact dashifyAux_chars _ false c (stripDash_subset hc)
  · intro c hc hceq
    rw [hmk] at hc
    have hd := stripDash_head hc
    rw [hceq] at hd
    exact absurd hd (by decide)
  · intro c hc hceq
    rw [hmk] at hc
    have hd := stripDash_getLast hc
    rw [hceq] at hd
    exact absurd hd (by decide)

/-- Witness for C7: the concrete name "Dr. Jane Smith" matches the shape
and its identifier is well-formed. -/
theorem make_id_wellformed_witness :
    drShapeW ("Dr. Jane Smith") [['J', 'a', 'n', 'e'], ['S', 'm', 'i', 't', 'h']] ∧
    make_id ("Dr. Jane Smith") ≠ "" ∧
    (∀ c ∈ (make_id ("Dr. Jane Smith")).data, isIdChar c = true) ∧
    (∀ c, (make_id ("Dr. Jane Smith")).data.head? = some c → c ≠ '-') ∧
    (∀ c, (make_id ("Dr. Jane Smith")).data.getLast? = some c → c ≠ '-') := by
  have h := make_id_wellformed ("Dr. Jane Smith")
    [['J', 'a', 'n', 'e'], ['S', 'm', 'i', 't', 'h']] (by decide)
  exact ⟨by decide, h.1, h.2.1, h.2.2.1, h.2.2.2.1⟩

/-- Claim C10 counterexample: for the accepted name "Dr. Dr. Smith Jones"
(which starts with "Dr. "), the synthesized first-name field is "Smith" —
the name with every occurrence of "Dr. " deleted — and not the first
token following the prefix, which is "Dr.". -/
theorem name_split_cex :
    pyStartsWith ("Dr. Dr. Smith Jones") ("Dr. ") = true ∧
    ((merge_surgeons [] [mkCand ("Dr. Dr. Smith Jones")]).1.map fun r => r.fn) =
      [("Smith" : String)] ∧
    firstFollowingToken ("Dr. Dr. Smith Jones") = "Dr." ∧
    ("Smith" : String) ≠ ("Dr." : String) := by
  decide

/-- Claim C10 amended: an accepted candidate whose stripped name starts
with "Dr." but not "Dr. " gets empty first- and last-name fields; for a
name of the form "Dr. " ++ rest in which "Dr. " does not reoccur and
rest has at least one token, the first-name field is the first token
following the prefix and the last-name field is the last token of the
name.  (In general the code takes the first and last token of the name
with every occurrence of "Dr. " deleted.) -/
theorem name_split_amended (e : Candidate) (name : String)
    (h1 : candName e = name) (h2 : name ≠ "") (h3 : pyStartsWith name ("Dr.") = true) :
    (merge_surgeons [] [e]).1 = [buildRecord e name] ∧
    (pyStartsWith name ("Dr. ") = false →
      (buildRecord e name).fn = "" ∧ (buildRecord e name).ln = "") ∧
    (∀ rest : List Char, name.data = drPrefixChars ++ rest → ¬(drPrefixChars <:+: rest) →
      pyTokens rest ≠ [] →
      (buildRecord e name).fn = firstFollowingToken name ∧
      (buildRecord e name).ln = lastToken name) := by
  have hcond : ¬(name = "" ∨ pyStartsWith name ("Dr.") = false) := by
    simp [h2, h3]
  have hmerge : merge_surgeons [] [e] = ([buildRecord e name], 1) := by
    simp only [merge_surgeons, mergeLoop, h1]
    rw [if_neg hcond]
    simp [mergeLoop]
  refine ⟨by rw [hmerge], ?_, ?_⟩
  · intro hns
    constructor
    · rw [buildRecord_fn, if_neg (by simp [hns])]
    · rw [buildRecord_ln, if_neg (by simp [hns])]
  · intro rest hdata hno htok
    have hsw : pyStartsWith name ("Dr. ") = true := by
      unfold pyStartsWith
      rw [hdata]
      apply List.isPrefixOf_iff_prefix.mpr
      rw [show ("Dr. " : String).data = drPrefixChars from rfl]
      exact List.prefix_append _ _
    have hstrip : replaceAll drPrefixChars [] name.data = rest := by
      rw [hdata]
      exact replaceAll_strip_front drPrefixChars rest (by decide) hno
    constructor
    · rw [buildRecord_fn, if_pos hsw]
      unfold drStripTokens firstFollowingToken
      rw [hstrip, hdata]
      have hdrop4 : (drPrefixChars ++ rest).drop 4 = rest := by
        rw [show (4 : Nat) = drPrefixChars.length from rfl]
        exact List.drop_left _ _
      rw [hdrop4]
    · rw [buildRecord_ln, if_pos hsw]
      unfold drStripTokens lastToken
      rw [hstrip, hdata]
      have hpd : pyTokens (drPrefixChars ++ rest) = ['D', 'r', '.'] :: pyTokens rest := rfl
      rw [hpd]
      cases hts : pyTokens rest with
      | nil => exact absurd hts htok
      | cons t ts => simp only [List.getLastD_cons]

/-- Witness for the amended C10 theorem: "Dr. Jane Smith" exercises the
single-occurrence branch (fn "Jane", ln "Smith" — the first following
token and the last token), and "Dr.X Smith" exercises the no-space
branch (empty fn/ln). -/
theorem name_split_amended_witness :
    (candName (mkCand ("Dr. Jane Smith")) = "Dr. Jane Smith" ∧
     ("Dr. Jane Smith" : String) ≠ "" ∧
     pyStartsWith ("Dr. Jane Smith") ("Dr.") = true ∧
     ("Dr. Jane Smith" : String).data = drPrefixChars ++ ("Jane Smith" : String).data ∧
     ¬(drPrefixChars <:+: ("Jane Smith" : String).data) ∧
     pyTokens (("Jane Smith" : String).data) ≠ []) ∧
    ((buildRecord (mkCand ("Dr. Jane Smith")) ("Dr. Jane Smith")).fn =
      firstFollowingToken ("Dr. Jane Smith") ∧
     (buildRecord (mkCand ("Dr. Jane Smith")) ("Dr. Jane Smith")).ln =
      lastToken ("Dr. Jane Smith")) ∧
    (pyStartsWith ("Dr.X Smith") ("Dr. ") = false ∧
     (buildRecord (mkCand ("Dr.X Smith")) ("Dr.X Smith")).fn = "" ∧
     (buildRecord (mkCand ("Dr.X Smith")) ("Dr.X Smith")).ln = "") := by
  have hb := (name_split_amended (mkCand ("Dr. Jane Smith")) ("Dr. Jane Smith")
      (by decide) (by decide) (by decide)).2.2
      (("Jane Smith" : String).data) (by decide) (by decide) (by decide)
  have ha := (name_split_amended (mkCand ("Dr.X Smith")) ("Dr.X Smith")
      (by decide) (by decide) (by decide)).2.1 (by decide)
  exact ⟨⟨by decide, by decide, by decide, by decide, by decide, by decide⟩,
    ⟨hb.1, hb.2⟩, ⟨by decide, ha.1, ha.2⟩⟩



/-- Claim C1: for every canonical set `E` and candidate list `C`, if
`(E', a) = merge_surgeons(E, C)` then `merge_surgeons(E', C)` returns
added count 0 and leaves the canonical set equal to `E'`. -/
theorem merge_surgeons_idempotent (E : List SurgeonRecord) (C : List Candidate) :
    merge_surgeons (merge_surgeons E C).1 C = ((merge_surgeons E C).1, 0) := by
  have hrefl : SeenEquiv (E.map fun d => normalize_name d.name)
      (E.map fun d => normalize_name d.name) := by
    intro x
    exact Iff.rfl
  have htracks := mergeLoop_seen_tracks C E _ hrefl
  have hskip := mergeLoop_skip_all C
    (mergeLoop E (E.map fun d => normalize_name d.name) C).1 _
    (fun e he hg => (htracks _).mp (mergeLoop_seen_covers C E _ e he hg))
  simp only [merge_surgeons]
  rw [hskip]

/-- Claim C2 counterexample: `"Dr.  Jane   Smith."` (doubled internal
spaces, trailing period) does not normalize to the same key as
`"Dr. Jane Smith"` — the strip happens before the punctuation removal,
so a leading space survives — and `merge_surgeons` therefore adds two
records for the pair, not at most one, in either order. -/
theorem dedup_symmetry_cex :
    normalize_name ("Dr.  Jane   Smith.") ≠ normalize_name ("Dr. Jane Smith") ∧
    (merge_surgeons [] [mkCand ("Dr. Jane Smith"), mkCand ("Dr.  Jane   Smith.")]).2 = 2 ∧
    (merge_surgeons [] [mkCand ("Dr.  Jane   Smith."), mkCand ("Dr. Jane Smith")]).2 = 2 := by
  decide

/-- Claim C2 amended: `"Dr. Jane Smith"` and `"dr jane smith"` produce
the same normalized key, and `merge_surgeons` adds at most one record
for the pair in either order (the lowercase variant is additionally
rejected by the title check); but `"Dr.  Jane   Smith."` normalizes to a
different key (a leading space survives), so it is treated as a distinct
identity. -/
theorem dedup_symmetry_amended :
    normalize_name ("Dr. Jane Smith") = normalize_name ("dr jane smith") ∧
    (merge_surgeons [] [mkCand ("Dr. Jane Smith"), mkCand ("dr jane smith")]).2 = 1 ∧
    (merge_surgeons [] [mkCand ("dr jane smith"), mkCand ("Dr. Jane Smith")]).2 = 1 ∧
    normalize_name ("Dr.  Jane   Smith.") ≠ normalize_name ("Dr. Jane Smith") := by
  decide

/-- Claim C4 counterexample: for a candidate supplying only a name, the
synthesized record gives the absent organization field the sentinel
`"Verify directly"`, not the claimed `"unverified — verify directly"`,
and leaves the absent city field as the empty string rather than any
sentinel. -/
theorem merge_defaults_cex :
    ((merge_surgeons [] [mkCand ("Dr. Jane Smith")]).1.map fun r => r.org) =
      [("Verify directly" : String)] ∧
    ((merge_surgeons [] [mkCand ("Dr. Jane Smith")]).1.map fun r => r.city) = [("" : String)] ∧
    ("Verify directly" : String) ≠ ("unverified — verify directly" : String) := by
  decide

/-- Claim C4 amended: for every accepted candidate the synthesized record
forces `verified = false`, null geocoordinates, `stars = 4` and the
insurance sentinel `"Verify directly"`; absent organization gets the
sentinel `"Verify directly"`, absent city/state/web get the empty string,
absent phone stays null, absent specialties default to
`["Excision Surgery"]`, absent accepting defaults to true, and absent
notes are auto-generated citing the candidate's source (or
`"monthly update"` when the source is also absent). -/
theorem merge_defaults_amended (e : Candidate) (name : String)
    (h1 : candName e = name) (h2 : name ≠ "") (h3 : pyStartsWith name ("Dr.") = true) :
    (merge_surgeons [] [e]).1 = [buildRecord e name] ∧
    (merge_surgeons [] [e]).2 = 1 ∧
    (buildRecord e name).ins = "Verify directly" ∧
    (buildRecord e name).lat = none ∧
    (buildRecord e name).lon = none ∧
    (buildRecord e name).verified = false ∧
    (buildRecord e name).stars = 4 ∧
    (e.org = none → (buildRecord e name).org = "Verify directly") ∧
    (e.city = none → (buildRecord e name).city = "") ∧
    (e.state = none → (buildRecord e name).state = "") ∧
    (e.phone = none → (buildRecord e name).phone = none) ∧
    (e.web = none → e.profile_url = none → (buildRecord e name).web = "") ∧
    (e.specs = none → (buildRecord e name).specs = ["Excision Surgery"]) ∧
    (e.accepting = none → (buildRecord e name).accepting = true) ∧
    (e.notes = none →
      (buildRecord e name).notes =
        "Added via " ++ e.source.getD ("monthly update") ++ ". Verify details directly.") := by
  have hcond : ¬(name = "" ∨ pyStartsWith name ("Dr.") = false) := by
    simp [h2, h3]
  have hmerge : merge_surgeons [] [e] = ([buildRecord e name], 1) := by
    simp only [merge_surgeons, mergeLoop, h1]
    rw [if_neg hcond]
    simp [mergeLoop]
  refine ⟨by rw [hmerge], by rw [hmerge], rfl, rfl, rfl, rfl, rfl, ?_, ?_, ?_, ?_, ?_, ?_, ?_, ?_⟩
  · intro h
    simp [buildRecord, h]
  · intro h
    simp [buildRecord, h]
  · intro h
    simp [buildRecord, h]
  · intro h
    simp [buildRecord, h]
  · intro hw hp
    simp [buildRecord, hw, hp]
  · intro h
    simp [buildRecord, h]
  · intro h
    simp [buildRecord, h]
  · intro h
    simp [buildRecord, h]

/-- Witness for the amended C4 theorem: a concrete candidate carrying
only the name "Dr. Jane Smith" satisfies its hypotheses, one record is
added, the absent organization receives the sentinel, and the notes cite
the fallback source. -/
theorem merge_defaults_amended_witness :
    (candName (mkCand ("Dr. Jane Smith")) = "Dr. Jane Smith" ∧
     ("Dr. Jane Smith" : String) ≠ "" ∧
     pyStartsWith ("Dr. Jane Smith") ("Dr.") = true) ∧
    (merge_surgeons [] [mkCand ("Dr. Jane Smith")]).2 = 1 ∧
    (buildRecord (mkCand ("Dr. Jane Smith")) ("Dr. Jane Smith")).org = "Verify directly" ∧
    (buildRecord (mkCand ("Dr. Jane Smith")) ("Dr. Jane Smith")).notes =
      "Added via monthly update. Verify details directly." := by
  obtain ⟨-, hadd, -, -, -, -, -, horg, -, -, -, -, -, -, hnotes⟩ :=
    merge_defaults_amended (mkCand ("Dr. Jane Smith")) ("Dr. Jane Smith")
      (by decide) (by decide) (by decide)
  exact ⟨⟨by decide, by decide, by decide⟩, hadd, horg rfl, hnotes rfl⟩

/-- Claim C3: every record in the canonical set before the merge is
still present afterwards, with every field unchanged — the pre-existing
set is a prefix of the result, whatever the candidates contain. -/
theorem merge_surgeons_nondestructive (E : List SurgeonRecord) (C : List Candidate) :
    E <+: (merge_surgeons E C).1 ∧ ∀ r ∈ E, r ∈ (merge_surgeons E C).1 :=
  ⟨merge_surgeons_extends E C, fun _ hr => (merge_surgeons_extends E C).subset hr⟩

/-- Claim C5: merging per source successively gives the same canonical
set as one merge on the concatenated candidate list, and the two added
counts sum to the single added count. -/
theorem merge_surgeons_per_source_union (E : List SurgeonRecord) (C₁ C₂ : List Candidate) :
    (merge_surgeons (merge_surgeons E C₁).1 C₂).1 = (merge_surgeons E (C₁ ++ C₂)).1 ∧
    (merge_surgeons E C₁).2 + (merge_surgeons (merge_surgeons E C₁).1 C₂).2 =
      (merge_surgeons E (C₁ ++ C₂)).2 := by
  obtain ⟨ha1, -, ha3⟩ := mergeLoop_append C₁ C₂ E (E.map fun d => normalize_name d.name)
  have hrefl : SeenEquiv (E.map fun d => normalize_name d.name)
      (E.map fun d => normalize_name d.name) := by
    intro x
    exact Iff.rfl
  have htracks := mergeLoop_seen_tracks C₁ E _ hrefl
  obtain ⟨hc1, hc2, -⟩ := mergeLoop_congr C₂
    (mergeLoop E (E.map fun d => normalize_name d.name) C₁).1 _ _
    (seenEquiv_symm htracks)
  constructor
  · simp only [merge_surgeons]
    rw [hc1, ha1]
  · simp only [merge_surgeons]
    rw [hc2, ha3]

/-- Claim C6: if one source's scraper raises, its outcome entry records
the error, the exception does not propagate — the final set and total
added count are exactly those of the run without the failing source —
and every record present before the run is preserved. -/
theorem run_sources_fault_isolation
    (pre post : List (String × Except String (List Candidate))) (nm msg : String)
    (E : List SurgeonRecord) :
    (runSources (pre ++ (nm, Except.error msg) :: post) E).1 =
      (runSources (pre ++ post) E).1 ∧
    (runSources (pre ++ (nm, Except.error msg) :: post) E).2.1 =
      (runSources (pre ++ post) E).2.1 ∧
    (nm, SourceOutcome.err msg) ∈ (runSources (pre ++ (nm, Except.error msg) :: post) E).2.2 ∧
    E <+: (runSources (pre ++ (nm, Except.error msg) :: post) E).1 := by
  obtain ⟨ha, hb, hc⟩ := runSources_skip_error post nm msg pre E
  exact ⟨ha, hb, hc, runSources_extends _ E⟩

/-- Claim C8: the persisted run-summary history after appending is a
suffix of the appended history (oldest-first order preserved, newest
kept) whose length is the minimum of the retention cap 24 and the
appended length — so it never exceeds 24, and once the cap is reached it
holds exactly the most recent 24 summaries. -/
theorem run_history_retention_cap (h : List RunSummary) (e : RunSummary) :
    (appendRunSummary h e).length = min 24 (h.length + 1) ∧
    appendRunSummary h e <:+ h ++ [e] := by
  constructor
  · simp only [appendRunSummary, List.length_drop, List.length_append, List.length_singleton]
    omega
  · exact List.drop_suffix _ _

/-- Claim C9: the iCareBetter page loop visits at most 40 pages for
every possible sequence of fetched pages, even when every page reports a
next-page signal. -/
theorem icarebetter_page_limit (fetch : Nat → Option PageDoc) :
    (scrape_icarebetter fetch).2 ≤ 40 := by
  simpa [scrape_icarebetter] using scrapePages_visits fetch 39 1 []

end EndoFind
